import Mathlib

/-!
Verification of btplotting's clock module (src/btplotting/clock.py).

Modelling conventions:
- A timestamp (Python `datetime`) is modelled as `Int`; only its total order
  and equality are used by the code.
- A float value is modelled as `Option Int`: `none` stands for the NaN
  missing marker.  Python's NaN test `x == x` becomes `Option.isSome`,
  and `v != v` becomes `Option.isNone`.
- Python list indexing `l[i]` with an `int` index (possibly negative, with
  wrap-around) is `pyIndex`; an out-of-bounds access raises `IndexError`,
  modelled as `none` where the code catches it and as an aborting `none`
  result (`Option`-valued function) where it does not.
- Python slicing `l[start:stop]` is `pySlice` (never raises, clamps).
- The truthiness test `if sc_prev:` in the source is applied to a
  `datetime` value, which is always truthy, so it is modelled as
  `Option.isSome` of the remembered pair.
- The truthiness test `if back:` is applied to `None` or an `int`, so it is
  `back = some b` with `b ≠ 0`.
-/

/-- Python indexing `l[i]` for `int` index: negative indices wrap around;
returns `none` exactly when Python raises `IndexError`. -/
def pyIndex {α : Type} (l : List α) (i : Int) : Option α :=
  if 0 ≤ i then l.get? i.toNat
  else if 0 ≤ i + l.length then l.get? (i + l.length).toNat
  else none

/-- Python slicing `l[start:stop]` for `int` bounds: negative bounds count
from the end, out-of-range bounds clamp; never raises. -/
def pySlice {α : Type} (l : List α) (start stop : Int) : List α :=
  let n : Int := l.length
  let s : Int := if start < 0 then max 0 (n + start) else min start n
  let e : Int := if stop < 0 then max 0 (n + stop) else min stop n
  (l.take e.toNat).drop s.toNat

/-- clock.py `get_slice_with_end(data, start, end)`:
`list(data)[start:end] + [data[end]]` when `end >= start`, with the
`IndexError` from `data[end]` caught and turned into `[]`; `[]` when
`end < start`. -/
def get_slice_with_end {α : Type} (data : List α) (start end_ : Int) : List α :=
  if end_ ≥ start then
    match pyIndex data end_ with
    | some x => pySlice data start end_ ++ [x]
    | none => []
  else []

/-- Python `bisect.bisect_left(arr, x)` on a sorted list: the number of
elements strictly below `x` (the leftmost insertion point). -/
def bisect_left (arr : List Int) (x : Int) : Nat :=
  arr.countP (fun y => decide (y < x))

/-- Python `bisect.bisect_right(arr, x)` on a sorted list: the number of
elements not above `x` (the rightmost insertion point). -/
def bisect_right (arr : List Int) (x : Int) : Nat :=
  arr.countP (fun y => decide (y ≤ x))

/-- The `start`/`end` arguments of `ClockGenerator._get_clock_range`:
either `None`, a raw `int` index, or a `datetime` timestamp. -/
inductive RangeArg : Type
  | none : RangeArg
  | idx : Int → RangeArg
  | ts : Int → RangeArg

/-- clock.py `ClockGenerator._get_clock_range(arr, start, end, back)`. -/
def _get_clock_range (arr : List Int) (start end_ : RangeArg)
    (back : Option Int) : Int × Int :=
  let s : Int :=
    match start with
    | RangeArg.none => 0
    | RangeArg.idx i => i
    | RangeArg.ts t => bisect_left arr t
  let e : Int :=
    match end_ with
    | RangeArg.none => (arr.length : Int) - 1
    | RangeArg.idx i => i
    | RangeArg.ts t => (bisect_right arr t : Int) - 1
  let s' : Int :=
    match back with
    | Option.some b => if b ≠ 0 then max 0 (e - b + 1) else s
    | Option.none => s
  (s', e)

/-- clock.py `ClockHandler` state: the reference/source clock slice `clk`
and the managed index range `[start, end]` into value buffers. -/
structure ClockHandler : Type where
  clk : List Int
  start : Int
  end_ : Int

/-- The inner scan of `ClockHandler._get_data_from_list`: the
`for sc_idx in range(c_idx, len(llist))` loop body for one reference
instant `c`.  State: `v` is the tentative candidate (`none` = NaN),
`prev` is `(sc_prev, idx_prev)` (`none` when both are Python `None`).
`fuel` is a structural-recursion bound instantiated to `llist.length`
at the entry point, so it never runs out before `scIdx` reaches
`llist.length`.  Returns `some (value, new c_idx)`, or `none` when
`self.clk[sc_idx]` or `llist[idx_prev]` raises `IndexError`. -/
def scanAux (selfClk : List Int) (llist : List (Option Int))
    (fill_gaps : Bool) (c : Int) (cIdx : Nat) :
    Nat → Nat → Option Int → Option (Int × Nat) →
    Option (Option Int × Nat)
  | 0, _, v, _ => some (v, cIdx)
  | fuel + 1, scIdx, v, prev =>
    if h : scIdx < llist.length then
      match selfClk.get? scIdx with
      | Option.none => none
      | Option.some sc =>
        if sc < c then
          let x := llist.get ⟨scIdx, h⟩
          let v' := if x.isSome then x else v
          let prev' := if x.isSome then some (sc, scIdx) else prev
          scanAux selfClk llist fill_gaps c cIdx fuel (scIdx + 1) v' prev'
        else if sc = c then
          let x := llist.get ⟨scIdx, h⟩
          let v' := if v.isNone || x.isSome then x else v
          some (v', scIdx + 1)
        else
          if fill_gaps || (match prev with
              | Option.some (sp, _) => decide (sp < c)
              | Option.none => false) then
            match prev with
            | Option.some (_, ip) =>
              match llist.get? ip with
              | Option.some xp => some (xp, ip + 1)
              | Option.none => none
            | Option.none => some (llist.get ⟨scIdx, h⟩, scIdx)
          else some (v, cIdx)
    else some (v, cIdx)

/-- One outer-loop iteration of `_get_data_from_list` for reference
instant `c`, starting the inner scan at cursor `cIdx` with a fresh NaN
candidate and no remembered previous value. -/
def alignOne (selfClk : List Int) (llist : List (Option Int))
    (fill_gaps : Bool) (c : Int) (cIdx : Nat) :
    Option (Option Int × Nat) :=
  scanAux selfClk llist fill_gaps c cIdx llist.length cIdx Option.none Option.none

/-- The outer loop of `_get_data_from_list`: walk the reference clock,
threading the cursor `cIdx`, appending one value per reference instant. -/
def getDataAux (selfClk : List Int) (llist : List (Option Int))
    (fill_gaps : Bool) : List Int → Nat → Option (List (Option Int))
  | [], _ => some []
  | c :: cs, cIdx =>
    match alignOne selfClk llist fill_gaps c cIdx with
    | Option.none => none
    | Option.some (v, cIdx') =>
      match getDataAux selfClk llist fill_gaps cs cIdx' with
      | Option.none => none
      | Option.some ds => some (v :: ds)

/-- clock.py `ClockHandler._get_data_from_list(llist, clk, fill_gaps)`:
align the value segment `llist` (sampled on `self.clk`) to the reference
clock `clk`.  Returns `none` when an index access raises `IndexError`. -/
def ClockHandler._get_data_from_list (self : ClockHandler)
    (llist : List (Option Int)) (clk : List Int) (fill_gaps : Bool) :
    Option (List (Option Int)) :=
  getDataAux self.clk llist fill_gaps clk 0

/-- clock.py `ClockHandler.get_list_from_line(line, clkalign, fill_gaps)`:
slice the line's buffer to the handler's range, then align to `clkalign`
(defaulting to the handler's own clock). -/
def ClockHandler.get_list_from_line (self : ClockHandler)
    (line : List (Option Int)) (clkalign : Option (List Int))
    (fill_gaps : Bool) : Option (List (Option Int)) :=
  let llist := get_slice_with_end line self.start self.end_
  self._get_data_from_list llist (clkalign.getD self.clk) fill_gaps

/-- Observer of `_get_data_from_list`: the successive values of the
cursor `c_idx` at the start of each outer-loop iteration (one entry per
reference instant processed, plus the final cursor; the trace stops
early at an `IndexError`).  It recomputes exactly the scans the outer
loop `getDataAux` performs. -/
def cursorTrace (selfClk : List Int) (llist : List (Option Int))
    (fill_gaps : Bool) : List Int → Nat → List Nat
  | [], cIdx => [cIdx]
  | c :: cs, cIdx =>
    match alignOne selfClk llist fill_gaps c cIdx with
    | Option.none => [cIdx]
    | Option.some (_, cIdx') =>
      cIdx :: cursorTrace selfClk llist fill_gaps cs cIdx'

/-- C1 counterexample: with source clock `[1,2,3,5,6]`, values
`[10,20,30,50,60]`, reference clock `[1,2,3,4,5,6]` and
`fill_gaps=False`, the output is NOT `[10,20,30,30,50,60]` as the claim
states: the exact match at reference instant 3 advanced the cursor past
source position 2, and the per-instant candidate reset makes instant 4
start with a NaN candidate and no remembered previous sample. -/
theorem claim1_counterexample :
    ({ clk := [1, 2, 3, 5, 6], start := 0, end_ := 4 } :
        ClockHandler).get_list_from_line
      [some 10, some 20, some 30, some 50, some 60]
      (some [1, 2, 3, 4, 5, 6]) false
    ≠ some [some 10, some 20, some 30, some 30, some 50, some 60] := by decide

/-- C1 amended: with source clock `[1,2,3,5,6]`, values `[10,20,30,50,60]`,
reference clock `[1,2,3,4,5,6]` and `fill_gaps=False`, the output is
`[10,20,30,NaN,50,60]`: reference instant 4 receives the missing marker,
not the forward-filled 30, because the candidate and the remembered
previous sample are reset at the start of each reference instant and the
cursor already points at source timestamp 5. -/
theorem claim1_gap_yields_missing :
    ({ clk := [1, 2, 3, 5, 6], start := 0, end_ := 4 } :
        ClockHandler).get_list_from_line
      [some 10, some 20, some 30, some 50, some 60]
      (some [1, 2, 3, 4, 5, 6]) false
    = some [some 10, some 20, some 30, Option.none, some 50, some 60] := by
  decide

/-- C3: with source clock `[1,2,3,5,6]`, values `[10,20,30,50,60]`,
reference clock `[1,2,3,4,5,6]` and `fill_gaps=True`, the output is
`[10,20,30,50,50,60]`: reference instant 4 adopts the next source value
50 instead of holding 30. -/
theorem claim3_fill_gaps_scenario :
    ({ clk := [1, 2, 3, 5, 6], start := 0, end_ := 4 } :
        ClockHandler).get_list_from_line
      [some 10, some 20, some 30, some 50, some 60]
      (some [1, 2, 3, 4, 5, 6]) true
    = some [some 10, some 20, some 30, some 50, some 50, some 60] := by
  decide

/-- C4: `get_slice_with_end` returns `data[start:end] + [data[end]]`
whenever `end ≥ start` and indexing at `end` succeeds; it returns `[]`
when `end < start` or when indexing at `end` is out of bounds (so it
never raises — every input falls in one of these total cases); in
particular the result is `[]` for every empty input. -/
theorem claim4_get_slice_with_end_spec {α : Type} (data : List α) (s e : Int) :
    (∀ x, s ≤ e → pyIndex data e = some x →
      get_slice_with_end data s e = pySlice data s e ++ [x]) ∧
    ((e < s ∨ pyIndex data e = Option.none) →
      get_slice_with_end data s e = []) ∧
    (data = [] → get_slice_with_end data s e = []) := by
  refine ⟨?_, ?_, ?_⟩
  · intro x hse hx
    simp [get_slice_with_end, ge_iff_le, hse, hx]
  · intro h
    rcases h with h | h
    · rw [get_slice_with_end, if_neg]
      omega
    · by_cases hse : e ≥ s
      · simp [get_slice_with_end, hse, h]
      · simp [get_slice_with_end, hse]
  · intro h
    subst h
    have hnone : pyIndex ([] : List α) e = Option.none := by
      simp [pyIndex]
    by_cases hse : e ≥ s
    · simp [get_slice_with_end, hse, hnone]
    · simp [get_slice_with_end, hse]

/-- Witness for C4 at a concrete input. -/
theorem claim4_witness :
    get_slice_with_end [(10 : Int), 20, 30] 0 1
      = pySlice [(10 : Int), 20, 30] 0 1 ++ [20] :=
  (claim4_get_slice_with_end_spec [(10 : Int), 20, 30] 0 1).1 20
    (by decide) (by decide)

/-- The inner scan never raises when the segment is no longer than the
stored source clock and every remembered index is inside the segment. -/
theorem scanAux_total (selfClk : List Int) (llist : List (Option Int))
    (fill_gaps : Bool) (c : Int) (cIdx : Nat)
    (hlen : llist.length ≤ selfClk.length) :
    ∀ (fuel scIdx : Nat) (v : Option Int) (prev : Option (Int × Nat)),
      (∀ sp ip, prev = Option.some (sp, ip) → ip < llist.length) →
      (scanAux selfClk llist fill_gaps c cIdx fuel scIdx v prev).isSome := by
  intro fuel
  induction fuel with
  | zero =>
    intro scIdx v prev _
    simp [scanAux]
  | succ fuel ih =>
    intro scIdx v prev hprev
    simp only [scanAux]
    by_cases h : scIdx < llist.length
    · rw [dif_pos h]
      obtain ⟨sc, hsc⟩ : ∃ sc, selfClk.get? scIdx = Option.some sc := by
        have hsc' : scIdx < selfClk.length := lt_of_lt_of_le h hlen
        exact ⟨selfClk.get ⟨scIdx, hsc'⟩, List.get?_eq_get hsc'⟩
      rw [hsc]
      dsimp only
      by_cases h1 : sc < c
      · rw [if_pos h1]
        apply ih
        intro sp ip hip
        by_cases hx : (llist.get ⟨scIdx, h⟩).isSome
        · simp only [hx, if_true] at hip
          cases hip
          exact h
        · simp only [hx, if_false] at hip
          exact hprev sp ip hip
      · rw [if_neg h1]
        by_cases h2 : sc = c
        · rw [if_pos h2]
          rfl
        · rw [if_neg h2]
          cases prev with
          | none =>
            split
            · rfl
            · rfl
          | some p =>
            obtain ⟨sp, ip⟩ := p
            have hip : ip < llist.length := hprev sp ip rfl
            have hget : ∃ xp, llist.get? ip = Option.some xp :=
              ⟨llist.get ⟨ip, hip⟩, List.get?_eq_get hip⟩
            obtain ⟨xp, hxp⟩ := hget
            split
            · dsimp only
              rw [hxp]
              rfl
            · rfl
    · rw [dif_neg h]
      rfl

/-- One outer-loop iteration never raises when the segment is no longer
than the stored source clock. -/
theorem alignOne_total (selfClk : List Int) (llist : List (Option Int))
    (fill_gaps : Bool) (c : Int) (cIdx : Nat)
    (hlen : llist.length ≤ selfClk.length) :
    (alignOne selfClk llist fill_gaps c cIdx).isSome :=
  scanAux_total selfClk llist fill_gaps c cIdx hlen llist.length cIdx
    Option.none Option.none (by intro sp ip hip; exact Option.noConfusion hip)

/-- The outer loop emits exactly one value per reference instant and
never raises, when the segment is no longer than the stored clock. -/
theorem getDataAux_total (selfClk : List Int) (llist : List (Option Int))
    (fill_gaps : Bool) (hlen : llist.length ≤ selfClk.length) :
    ∀ (cs : List Int) (cIdx : Nat),
      ∃ ds, getDataAux selfClk llist fill_gaps cs cIdx = Option.some ds ∧
        ds.length = cs.length := by
  intro cs
  induction cs with
  | nil =>
    intro cIdx
    exact ⟨[], rfl, rfl⟩
  | cons c cs ih =>
    intro cIdx
    have h1 := alignOne_total selfClk llist fill_gaps c cIdx hlen
    obtain ⟨⟨v, cIdx'⟩, hv⟩ := Option.isSome_iff_exists.mp h1
    obtain ⟨ds, hds, hlen'⟩ := ih cIdx'
    exact ⟨v :: ds, by simp [getDataAux, hv, hds], by simp [hlen']⟩

/-- C5 counterexample: a handler whose stored source clock is shorter
than the value segment aborts with an `IndexError` (result `none`), so
no output of the reference clock's length is produced — the claim's
"regardless of the buffer's length" is too strong. -/
theorem claim5_counterexample :
    ({ clk := [], start := 0, end_ := 0 } :
        ClockHandler)._get_data_from_list [some 10] [1] false
    = Option.none := by decide

/-- C5 (amended): provided the handler's stored source clock is at least
as long as the value segment, the resample emits exactly one output
value per reference-clock position, in order: the output exists and its
length equals the reference clock's length, for every fill_gaps flag.
(Without the length proviso the scan can raise an index error and no
output is produced, see the counterexample.) -/
theorem claim5_output_length (self : ClockHandler) (llist : List (Option Int))
    (clk : List Int) (fill_gaps : Bool)
    (hlen : llist.length ≤ self.clk.length) :
    ∃ ds, self._get_data_from_list llist clk fill_gaps = Option.some ds ∧
      ds.length = clk.length :=
  getDataAux_total self.clk llist fill_gaps hlen clk 0

/-- Witness for C5 at a concrete input. -/
theorem claim5_witness :
    ∃ ds, ({ clk := [1, 2], start := 0, end_ := 1 } :
        ClockHandler)._get_data_from_list [some 10] [5, 6] false
      = Option.some ds ∧ ds.length = 2 :=
  claim5_output_length _ _ _ _ (by decide)

/-- C10: when the handler's stored source clock is at least as long as
the sliced value segment, every index access of the inner scan is in
bounds and `get_list_from_line` completes without an out-of-range
access (the result is `some`, never the `IndexError` outcome `none`). -/
theorem claim10_inbounds (self : ClockHandler) (line : List (Option Int))
    (clkalign : Option (List Int)) (fill_gaps : Bool)
    (hlen : (get_slice_with_end line self.start self.end_).length ≤
      self.clk.length) :
    (self.get_list_from_line line clkalign fill_gaps).isSome := by
  unfold ClockHandler.get_list_from_line ClockHandler._get_data_from_list
  obtain ⟨ds, hds, -⟩ :=
    getDataAux_total self.clk (get_slice_with_end line self.start self.end_)
      fill_gaps hlen (clkalign.getD self.clk) 0
  simp [hds]

/-- Witness for C10 at a concrete input. -/
theorem claim10_witness :
    (({ clk := [1, 2, 3, 5, 6], start := 0, end_ := 4 } :
        ClockHandler).get_list_from_line
      [some 10, some 20, some 30, some 50, some 60]
      (some [1, 2, 3, 4, 5, 6]) false).isSome :=
  claim10_inbounds _ _ _ _ (by decide)

/-- When the source instant at the cursor equals the reference instant,
one outer-loop iteration adopts the segment value at the cursor (the
fresh candidate is NaN, so it is always overwritten) and advances the
cursor past that position. -/
theorem alignOne_exact (selfClk : List Int) (llist : List (Option Int))
    (fill_gaps : Bool) (i : Nat) (hi : i < llist.length) (c : Int)
    (hget : selfClk.get? i = Option.some c) :
    alignOne selfClk llist fill_gaps c i
      = Option.some (llist.get ⟨i, hi⟩, i + 1) := by
  unfold alignOne
  obtain ⟨m, hm⟩ : ∃ m, llist.length = m + 1 := by
    cases hl : llist.length with
    | zero => omega
    | succ m => exact ⟨m, rfl⟩
  conv_lhs => rw [hm]
  simp only [scanAux]
  rw [dif_pos hi, hget]
  dsimp only
  rw [if_neg (lt_irrefl c), if_pos rfl]
  simp

/-- Resampling onto the handler's own clock: each suffix of the clock
reproduces the corresponding suffix of the segment. -/
theorem getDataAux_self (selfClk : List Int) (llist : List (Option Int))
    (fill_gaps : Bool) (hlen : llist.length = selfClk.length) :
    ∀ (cs : List Int) (i : Nat), selfClk.drop i = cs →
      getDataAux selfClk llist fill_gaps cs i = Option.some (llist.drop i) := by
  intro cs
  induction cs with
  | nil =>
    intro i hdrop
    have h1 : selfClk.length ≤ i := by
      have h2 := congrArg List.length hdrop
      simp only [List.length_drop, List.length_nil] at h2
      omega
    have h2 : llist.drop i = [] := List.drop_eq_nil_of_le (by omega)
    rw [h2]
    rfl
  | cons c cs ih =>
    intro i hdrop
    have hi : i < selfClk.length := by
      by_contra hcon
      rw [List.drop_eq_nil_of_le (by omega)] at hdrop
      exact List.noConfusion hdrop
    have hi' : i < llist.length := by omega
    rw [List.drop_eq_getElem_cons hi] at hdrop
    injection hdrop with hd1 hd2
    have hgc : selfClk.get? i = Option.some c := by
      rw [List.get?_eq_getElem?, List.getElem?_eq_getElem hi, hd1]
    have halign := alignOne_exact selfClk llist fill_gaps i hi' c hgc
    have hrest := ih (i + 1) hd2
    have hstep : llist.drop i = llist.get ⟨i, hi'⟩ :: llist.drop (i + 1) := by
      rw [List.get_eq_getElem]
      exact List.drop_eq_getElem_cons hi'
    simp only [getDataAux]
    rw [halign]
    dsimp only
    rw [hrest]
    dsimp only
    rw [hstep]

/-- C6: resampling a value segment onto a reference clock identical to
the handler's own source clock (one-to-one positional correspondence)
reproduces the segment exactly, position for position, for either
fill_gaps flag — each reference instant matches its own source position
exactly and adopts that position's value, missing or not. -/
theorem claim6_identity_resample (self : ClockHandler)
    (llist : List (Option Int)) (fill_gaps : Bool)
    (hlen : llist.length = self.clk.length) :
    self._get_data_from_list llist self.clk fill_gaps = Option.some llist := by
  have h := getDataAux_self self.clk llist fill_gaps hlen self.clk 0
    (List.drop_zero self.clk)
  simpa [ClockHandler._get_data_from_list] using h

/-- Witness for C6 at a concrete input (including a missing value). -/
theorem claim6_witness :
    ({ clk := [1, 2, 3], start := 0, end_ := 2 } :
        ClockHandler)._get_data_from_list
      [some 10, Option.none, some 30] [1, 2, 3] false
      = Option.some [some 10, Option.none, some 30] :=
  claim6_identity_resample _ _ _ (by decide)

/-- The inner scan never returns a cursor below the one it started
from: every exit path returns `cIdx` itself, `scIdx` or `scIdx + 1`
(with `cIdx ≤ scIdx`), or `idx_prev + 1` (with `cIdx ≤ idx_prev`). -/
theorem scanAux_cursor_le (selfClk : List Int) (llist : List (Option Int))
    (fill_gaps : Bool) (c : Int) (cIdx : Nat) :
    ∀ (fuel scIdx : Nat) (v : Option Int) (prev : Option (Int × Nat)),
      cIdx ≤ scIdx →
      (∀ sp ip, prev = Option.some (sp, ip) → cIdx ≤ ip) →
      ∀ v' cIdx', scanAux selfClk llist fill_gaps c cIdx fuel scIdx v prev
        = Option.some (v', cIdx') → cIdx ≤ cIdx' := by
  intro fuel
  induction fuel with
  | zero =>
    intro scIdx v prev hsc hprev v' cIdx' heq
    simp only [scanAux, Option.some.injEq, Prod.mk.injEq] at heq
    omega
  | succ fuel ih =>
    intro scIdx v prev hsc hprev v' cIdx' heq
    simp only [scanAux] at heq
    by_cases h : scIdx < llist.length
    · rw [dif_pos h] at heq
      cases hg : selfClk.get? scIdx with
      | none =>
        rw [hg] at heq
        exact absurd heq (by simp)
      | some sc =>
        rw [hg] at heq
        dsimp only at heq
        by_cases h1 : sc < c
        · rw [if_pos h1] at heq
          refine ih (scIdx + 1) _ _ (by omega) ?_ v' cIdx' heq
          intro sp ip hip
          by_cases hx : (llist.get ⟨scIdx, h⟩).isSome
          · simp only [hx, if_true] at hip
            cases hip
            omega
          · simp only [hx, if_false] at hip
            exact hprev sp ip hip
        · rw [if_neg h1] at heq
          by_cases h2 : sc = c
          · rw [if_pos h2] at heq
            simp only [Option.some.injEq, Prod.mk.injEq] at heq
            omega
          · rw [if_neg h2] at heq
            cases prev with
            | none =>
              split at heq
              · simp only [Option.some.injEq, Prod.mk.injEq] at heq
                omega
              · simp only [Option.some.injEq, Prod.mk.injEq] at heq
                omega
            | some p =>
              obtain ⟨sp, ip⟩ := p
              have hip : cIdx ≤ ip := hprev sp ip rfl
              split at heq
              · dsimp only at heq
                cases hxp : llist.get? ip with
                | none =>
                  rw [hxp] at heq
                  exact absurd heq (by simp)
                | some xp =>
                  rw [hxp] at heq
                  simp only [Option.some.injEq, Prod.mk.injEq] at heq
                  omega
              · simp only [Option.some.injEq, Prod.mk.injEq] at heq
                omega
    · rw [dif_neg h] at heq
      simp only [Option.some.injEq, Prod.mk.injEq] at heq
      omega

/-- One outer-loop iteration never moves the cursor backwards. -/
theorem alignOne_cursor_le (selfClk : List Int) (llist : List (Option Int))
    (fill_gaps : Bool) (c : Int) (cIdx : Nat) (v' : Option Int)
    (cIdx' : Nat)
    (heq : alignOne selfClk llist fill_gaps c cIdx
      = Option.some (v', cIdx')) : cIdx ≤ cIdx' :=
  scanAux_cursor_le selfClk llist fill_gaps c cIdx llist.length cIdx
    Option.none Option.none (le_refl cIdx)
    (by intro sp ip hip; exact Option.noConfusion hip) v' cIdx' heq

/-- The cursor trace starts with the cursor it was given. -/
theorem cursorTrace_head (selfClk : List Int) (llist : List (Option Int))
    (fill_gaps : Bool) (cs : List Int) (cIdx : Nat) :
    (cursorTrace selfClk llist fill_gaps cs cIdx).head? = some cIdx := by
  cases cs with
  | nil => rfl
  | cons c cs =>
    simp only [cursorTrace]
    cases halign : alignOne selfClk llist fill_gaps c cIdx with
    | none => rfl
    | some p =>
      obtain ⟨v, cIdx'⟩ := p
      rfl

/-- The cursor trace is non-decreasing from any starting cursor. -/
theorem cursorTrace_chain (selfClk : List Int) (llist : List (Option Int))
    (fill_gaps : Bool) :
    ∀ (cs : List Int) (cIdx : Nat),
      List.Chain' (· ≤ ·) (cursorTrace selfClk llist fill_gaps cs cIdx) := by
  intro cs
  induction cs with
  | nil =>
    intro cIdx
    simp [cursorTrace]
  | cons c cs ih =>
    intro cIdx
    simp only [cursorTrace]
    cases halign : alignOne selfClk llist fill_gaps c cIdx with
    | none => simp
    | some p =>
      obtain ⟨v, cIdx'⟩ := p
      rw [List.chain'_cons']
      refine ⟨?_, ih cIdx'⟩
      intro y hy
      rw [cursorTrace_head selfClk llist fill_gaps cs cIdx'] at hy
      have hy' : y = cIdx' := by
        simpa using hy.symm
      rw [hy']
      exact alignOne_cursor_le selfClk llist fill_gaps c cIdx v cIdx' halign

/-- C7: within a single resample call, the source-scan cursor never
decreases between successive reference instants: the successive values
of `c_idx` across the outer loop form a non-decreasing sequence, for
every segment, reference clock and fill_gaps setting. -/
theorem claim7_cursor_monotone (self : ClockHandler)
    (llist : List (Option Int)) (clk : List Int) (fill_gaps : Bool) :
    List.Chain' (· ≤ ·) (cursorTrace self.clk llist fill_gaps clk 0) :=
  cursorTrace_chain self.clk llist fill_gaps clk 0

/-- With fill_gaps=False, a scan that walks only missing-valued source
samples with instants before `c` and then meets a source instant above
`c` at position `j` emits NaN and leaves the cursor where it started. -/
theorem scanAux_overshoot (selfClk : List Int) (llist : List (Option Int))
    (c scj : Int) (cIdx j : Nat) (hj : j < llist.length)
    (hover : selfClk.get? j = Option.some scj) (hgt : c < scj) :
    ∀ (fuel scIdx : Nat), scIdx ≤ j → llist.length ≤ fuel + scIdx →
      (∀ k, scIdx ≤ k → k < j →
        ∃ sck, selfClk.get? k = Option.some sck ∧ sck < c ∧
          llist.get? k = Option.some Option.none) →
      scanAux selfClk llist false c cIdx fuel scIdx Option.none Option.none
        = Option.some (Option.none, cIdx) := by
  intro fuel
  induction fuel with
  | zero =>
    intro scIdx hsj hfuel hmid
    simp [scanAux]
  | succ fuel ih =>
    intro scIdx hsj hfuel hmid
    simp only [scanAux]
    have h : scIdx < llist.length := by omega
    rw [dif_pos h]
    rcases Nat.lt_or_ge scIdx j with hlt | hge
    · obtain ⟨sck, hsck, hltc, hval⟩ := hmid scIdx (le_refl scIdx) hlt
      rw [hsck]
      dsimp only
      rw [if_pos hltc]
      have hx : llist.get ⟨scIdx, h⟩ = Option.none := by
        have hg := List.get?_eq_get h
        rw [hg] at hval
        exact Option.some.inj hval
      have hfalse : ¬ ((Option.none : Option Int).isSome = true) := by simp
      rw [hx, if_neg hfalse, if_neg hfalse]
      exact ih (scIdx + 1) hlt (by omega)
        (fun k hk1 hk2 => hmid k (by omega) hk2)
    · have hje : scIdx = j := le_antisymm hsj hge
      subst hje
      rw [hover]
      dsimp only
      rw [if_neg (by omega : ¬ scj < c), if_neg (by omega : ¬ scj = c)]
      simp

/-- C2: with fill_gaps=False, when the scan for a reference instant hits
a source instant strictly greater than the reference instant at position
`j`, and no non-missing source instant strictly before the reference
instant was remembered during that scan (every position walked before
`j` held a missing value), the output for that reference instant is the
missing marker and the cursor is returned unchanged, so the same
overshooting source position `j` is examined again for the next
reference instant. -/
theorem claim2_overshoot_no_prev (selfClk : List Int)
    (llist : List (Option Int)) (c scj : Int) (cIdx j : Nat)
    (hcj : cIdx ≤ j) (hj : j < llist.length)
    (hmid : ∀ k, cIdx ≤ k → k < j →
      ∃ sck, selfClk.get? k = Option.some sck ∧ sck < c ∧
        llist.get? k = Option.some Option.none)
    (hover : selfClk.get? j = Option.some scj) (hgt : c < scj) :
    alignOne selfClk llist false c cIdx = Option.some (Option.none, cIdx) :=
  scanAux_overshoot selfClk llist c scj cIdx j hj hover hgt
    llist.length cIdx hcj (by omega) hmid

/-- Witness for C2 at a concrete input: reference instant 4 overshoots
directly at source instant 5 with nothing remembered. -/
theorem claim2_witness :
    alignOne [5] [some 50] false 4 0 = Option.some (Option.none, 0) :=
  claim2_overshoot_no_prev [5] [some 50] 4 5 0 0 (le_refl 0) (by decide)
    (fun k hk1 hk2 => absurd hk2 (by omega)) rfl (by decide)

/-- C8: at a source position whose instant exactly matches the current
reference instant, a missing source value never overwrites an
already-adopted non-missing candidate: the scan returns the previous
candidate and advances the cursor past the matching position. -/
theorem claim8_missing_keeps_candidate (selfClk : List Int)
    (llist : List (Option Int)) (fill_gaps : Bool) (c x : Int)
    (cIdx fuel scIdx : Nat) (prev : Option (Int × Nat))
    (h : scIdx < llist.length)
    (hc : selfClk.get? scIdx = Option.some c)
    (hmiss : llist.get ⟨scIdx, h⟩ = Option.none) :
    scanAux selfClk llist fill_gaps c cIdx (fuel + 1) scIdx
      (Option.some x) prev = Option.some (Option.some x, scIdx + 1) := by
  simp only [scanAux]
  rw [dif_pos h, hc]
  dsimp only
  rw [if_neg (lt_irrefl c), if_pos rfl, hmiss]
  simp

/-- Witness for C8 at a concrete input: candidate 30 survives the
missing value at the exactly-matching source position. -/
theorem claim8_witness :
    scanAux [4] [Option.none] false 4 0 1 0 (Option.some 30) Option.none
      = Option.some (Option.some 30, 1) :=
  claim8_missing_keeps_candidate [4] [Option.none] false 4 30 0 0 0
    Option.none (by decide) rfl rfl

/-- On a list sorted by `≤`, a downward-closed Boolean predicate holds
exactly on an initial segment, whose length is the `countP`. -/
theorem sorted_countP_iff (p : Int → Bool)
    (hmono : ∀ a b : Int, a ≤ b → p b = true → p a = true) :
    ∀ (arr : List Int), arr.Sorted (· ≤ ·) →
      ∀ (j : Nat) (hj : j < arr.length),
        (j < arr.countP p ↔ p (arr.get ⟨j, hj⟩) = true) := by
  intro arr
  induction arr with
  | nil =>
    intro _ j hj
    exact absurd hj (by simp)
  | cons a as ih =>
    intro hs j hj
    rw [List.sorted_cons] at hs
    obtain ⟨ha, hs'⟩ := hs
    by_cases hpa : p a = true
    · rw [List.countP_cons_of_pos p as hpa]
      cases j with
      | zero =>
        constructor
        · intro _
          simpa using hpa
        · intro _
          omega
      | succ j =>
        have hj' : j < as.length := by
          simp only [List.length_cons] at hj
          omega
        have hih := ih hs' j hj'
        constructor
        · intro hcount
          have h2 : j < as.countP p := by omega
          simpa using hih.mp h2
        · intro hp
          have h2 : j < as.countP p := hih.mpr (by simpa using hp)
          omega
    · have hnone : ∀ x ∈ as, ¬ (p x = true) := by
        intro x hx hpx
        exact hpa (hmono a x (ha x hx) hpx)
      have hzero : as.countP p = 0 := List.countP_eq_zero.mpr hnone
      have hcp : (a :: as).countP p = 0 := by
        rw [List.countP_cons_of_neg p as hpa, hzero]
      rw [hcp]
      constructor
      · intro h0
        omega
      · intro hp
        exfalso
        cases j with
        | zero => exact hpa (by simpa using hp)
        | succ j =>
          have hj' : j < as.length := by
            simp only [List.length_cons] at hj
            omega
          have hget : (a :: as).get ⟨j + 1, hj⟩ = as.get ⟨j, hj'⟩ := by
            simp
          rw [hget] at hp
          exact hnone _ (List.get_mem as j hj') hp

/-- C9: over a sorted decoded clock (no `back` argument): a Timestamp
start resolves to the leftmost position whose timestamp is ≥ it (the
positions strictly before the resolved start are exactly those with
timestamp < it), a Timestamp end resolves to the rightmost position
whose timestamp is ≤ it (the positions up to the resolved end are
exactly those with timestamp ≤ it), an absent start resolves to 0 and
an absent end to the last index of the sequence. -/
theorem claim9_clock_range (arr : List Int) (hs : arr.Sorted (· ≤ ·))
    (t u : Int) :
    (∀ (j : Nat) (hj : j < arr.length),
      ((j : Int) <
          (_get_clock_range arr (RangeArg.ts t) (RangeArg.ts u)
            Option.none).1
        ↔ arr.get ⟨j, hj⟩ < t)) ∧
    (∀ (j : Nat) (hj : j < arr.length),
      ((j : Int) ≤
          (_get_clock_range arr (RangeArg.ts t) (RangeArg.ts u)
            Option.none).2
        ↔ arr.get ⟨j, hj⟩ ≤ u)) ∧
    _get_clock_range arr RangeArg.none RangeArg.none Option.none
      = (0, (arr.length : Int) - 1) := by
  refine ⟨?_, ?_, rfl⟩
  · intro j hj
    have h1 := sorted_countP_iff (fun y => decide (y < t))
      (fun a b hab hb => by
        simp only [decide_eq_true_eq] at hb ⊢
        omega) arr hs j hj
    simp only [decide_eq_true_eq] at h1
    dsimp only [_get_clock_range, bisect_left]
    rw [← h1]
    exact Int.ofNat_lt
  · intro j hj
    have h1 := sorted_countP_iff (fun y => decide (y ≤ u))
      (fun a b hab hb => by
        simp only [decide_eq_true_eq] at hb ⊢
        omega) arr hs j hj
    simp only [decide_eq_true_eq] at h1
    dsimp only [_get_clock_range, bisect_right]
    rw [Int.le_sub_one_iff, ← h1]
    exact Int.ofNat_lt

/-- Witness for C9 at a concrete sorted clock. -/
theorem claim9_witness :
    _get_clock_range [1, 3, 5] RangeArg.none RangeArg.none Option.none
      = (0, 2) :=
  (claim9_clock_range [1, 3, 5] (by decide) 2 4).2.2
